import Mathlib

/-!
Verification of the recommendation pipeline of the library app.

Sources embedded here:
* `src/app/api/ai/web-recommend/route.ts` — the web path (`POST /api/ai/web-recommend`):
  topK clamping, Open Library fetching, widening pass, dedup, mulberry32-seeded
  Fisher-Yates shuffle, truncation — and the local rank path
  (`POST /api/ai/recommend`): cosine-similarity scoring, descending stable sort,
  `slice(0, topK)`.
* the client component (AIRecommendations): its own Fisher-Yates shuffle, the
  strict / relaxed / rotate-fallback selection passes with `MAX_WEB_RECS = 3`.

Modelling conventions:
* JS numbers are modelled as `Int` where the code treats them as integers
  (`topK`, limits, seeds) and as `ℚ` where fractional values matter (similarity
  scores, random draws).  `Math.sqrt` on floats has no exact rational meaning,
  so the pipeline is parametrised by an arbitrary square-root function
  `sq : ℚ → ℚ`; every theorem below holds for all `sq`.
* 32-bit JS bit operations (`Math.imul`, `^`, `|`, `>>>`) are modelled on `Nat`
  with explicit `% 2^32`; signed/unsigned representation differences cancel out
  because every JS value here is consumed through a further 32-bit coercion.
* `fetch` outcomes and `Math.random` are oracles supplied in an environment
  record; a rejected fetch promise is an `Except.error`, an HTTP failure
  (`!resp.ok`) or JSON-parse failure is handled inside `queryOpenLibrary`.
* Mutable JS arrays relevant to the no-mutation claim are modelled with a small
  store (`JsHeap`): references are `Nat`, `slice()` allocates a fresh reference.
-/

namespace LibraryRec

/-- ASCII case map of JS `toLowerCase` (all titles in play are ASCII). -/
def jsToLower (c : Char) : Char :=
  if 65 ≤ c.toNat ∧ c.toNat ≤ 90 then Char.ofNat (c.toNat + 32) else c

def isJsSpace (c : Char) : Bool := c = ' ' || c = '\t' || c = '\n' || c = '\r'

/-- Strip leading and trailing whitespace from a character list. -/
def trimList (l : List Char) : List Char :=
  ((l.dropWhile isJsSpace).reverse.dropWhile isJsSpace).reverse

/-- JS `trim()`. -/
def jsTrim (s : String) : String := ⟨trimList s.data⟩

/-- JS `join(sep)` on an array of strings. -/
def jsJoin (sep : String) : List String → String
  | [] => ""
  | [s] => s
  | s :: rest => s ++ sep ++ jsJoin sep rest

/-- Dedup/display key: `String(title).toLowerCase().trim()`. -/
def normTitle (s : String) : String := jsTrim ⟨s.data.map jsToLower⟩

/-- JS truthiness of an optional string: `undefined`/`null` and `""` are falsy. -/
def strTruthy : Option String → Bool
  | none => false
  | some s => !(s = "")

/-- `l.slice(0, e)` per ECMAScript: a negative end counts from the end of the
array, otherwise the result is the first `min e (length)` elements. -/
def jsSliceTo {α : Type} (l : List α) (e : Int) : List α :=
  if e < 0 then l.take (((l.length : Int) + e).toNat) else l.take e.toNat

/-- The swap `tmp = a[i]; a[i] = a[j]; a[j] = tmp` on a JS array, a no-op when
either index is out of bounds (the shuffle loops below always stay in bounds). -/
def listSwap {α : Type} (a : List α) (i j : Nat) : List α :=
  if h : i < a.length ∧ j < a.length then
    (a.set i (a.get ⟨j, h.2⟩)).set j (a.get ⟨i, h.1⟩)
  else a

/-! ### mulberry32 (web route, lines 141-148)

```
function mulberry32(a) {
  return function () {
    let t = (a += 0x6d2b79f5);
    t = Math.imul(t ^ (t >>> 15), t | 1);
    t ^= t + Math.imul(t ^ (t >>> 7), t | 61);
    return ((t ^ (t >>> 14)) >>> 0) / 4294967296;
  };
}
```
-/

/-- The 32-bit pattern of a JS integer (`ToUint32`). -/
def toUint32 (i : Int) : Nat := (i % 4294967296).toNat

/-- `Math.imul`: 32-bit multiplication (as a bit pattern). -/
def imul32 (x y : Nat) : Nat := (x * y) % 4294967296

/-- One output of the mulberry32 body, given the already-incremented state `a`;
all intermediate values are 32-bit patterns. -/
def mb32Output (a : Int) : Nat :=
  let t0 := toUint32 a
  let t1 := imul32 (t0 ^^^ (t0 >>> 15)) (t0 ||| 1)
  let t2 := t1 ^^^ ((t1 + imul32 (t1 ^^^ (t1 >>> 7)) (t1 ||| 61)) % 4294967296)
  (t2 ^^^ (t2 >>> 14)) % 4294967296

/-- The generator state after `n` draws: `a += 0x6d2b79f5` per draw.  The state
lives in `Int` because the JS `+=` is plain number addition (no 32-bit wrap);
the 32-bit reduction happens at `toUint32` inside `mb32Output`. -/
def mulberry32States (k : Int) : Nat → Int
  | 0 => k
  | n + 1 => mulberry32States k n + 0x6d2b79f5

/-- The value returned by the `n`-th call (0-based) of the mulberry32 closure
seeded with `k`: the fresh state's output divided by `4294967296`. -/
def mulberry32Stream (k : Int) (n : Nat) : ℚ :=
  (mb32Output (mulberry32States k (n + 1)) : ℚ) / 4294967296

/-! ### Fisher-Yates shuffle (web route lines 150-159, client lines 197-206)

```
function shuffleArray(arr, rand) {
  const a = arr.slice();
  for (let i = a.length - 1; i > 0; i--) {
    const j = Math.floor(rand() * (i + 1));
    const tmp = a[i]; a[i] = a[j]; a[j] = tmp;
  }
  return a;
}
```
`rand` is modelled as a stream `Nat → ℚ` of the successive values returned by
the random source; `n` below is the index of the next draw. -/

def fyGo {α : Type} (rand : Nat → ℚ) : Nat → Nat → List α → List α
  | _, 0, a => a
  | n, v + 1, a =>
    let j := (⌊rand n * ((v + 2 : Nat) : ℚ)⌋).toNat
    fyGo rand (n + 1) v (listSwap a (v + 1) j)

/-- The pure content transformation of `shuffleArray` (the `slice()` copy is
invisible here; it is modelled explicitly in the `JsHeap` version below). -/
def shuffleArray {α : Type} (rand : Nat → ℚ) (l : List α) : List α :=
  fyGo rand 0 (l.length - 1) l

/-! ### Heap-level shuffle, for the no-mutation claim -/

/-- A tiny store of JS arrays: references are `Nat`, `next` is the allocator. -/
structure JsHeap (α : Type) where
  arrays : Nat → List α
  next : Nat

/-- Overwrite the contents of reference `r`. -/
def heapWrite {α : Type} (h : JsHeap α) (r : Nat) (l : List α) : JsHeap α :=
  ⟨fun x => if x = r then l else h.arrays x, h.next⟩

/-- Allocate a fresh array holding `l` (this is what `arr.slice()` does). -/
def heapAlloc {α : Type} (h : JsHeap α) (l : List α) : Nat × JsHeap α :=
  (h.next, ⟨fun x => if x = h.next then l else h.arrays x, h.next + 1⟩)

/-- The shuffle loop acting on the store: each iteration swaps two cells of the
array at `aRef` (the local copy `a`); no other reference is ever written. -/
def fyLoopRef {α : Type} (rand : Nat → ℚ) (aRef : Nat) : Nat → Nat → JsHeap α → JsHeap α
  | _, 0, h => h
  | n, v + 1, h =>
    let a := h.arrays aRef
    let j := (⌊rand n * ((v + 2 : Nat) : ℚ)⌋).toNat
    fyLoopRef rand aRef (n + 1) v (heapWrite h aRef (listSwap a (v + 1) j))

/-- Server-side `shuffleArray` at store level: `const a = arr.slice()` allocates
a fresh reference initialised with `arr`'s contents, the loop mutates only that
copy, and the copy's reference is returned. -/
def shuffleArrayRef {α : Type} (rand : Nat → ℚ) (h : JsHeap α) (arr : Nat) : Nat × JsHeap α :=
  let p := heapAlloc h (h.arrays arr)
  (p.1, fyLoopRef rand p.1 0 ((h.arrays arr).length - 1) p.2)

/-- The client component's `shuffle` helper has the same body (its random
source is `Math.random()`, again a stream oracle). -/
def clientShuffleRef {α : Type} (rand : Nat → ℚ) (h : JsHeap α) (arr : Nat) : Nat × JsHeap α :=
  let p := heapAlloc h (h.arrays arr)
  (p.1, fyLoopRef rand p.1 0 ((h.arrays arr).length - 1) p.2)

/-! ### Web path: data model and environment (web route lines 24-174) -/

/-- One raw document of the Open Library response (`json.docs` entry). -/
structure RawDoc where
  title : Option String
  author_name : Option (List String)
  key : Option String
deriving DecidableEq

/-- The normalized recommendation unit produced by `queryOpenLibrary`'s map. -/
structure Candidate where
  title : String
  author : String
  key : Option String
  source : String
deriving DecidableEq

/-- The four ways one `fetch` against Open Library can go: the promise rejects
(network-level failure), the response is not ok, `resp.json()` rejects, or a
document list comes back. -/
inductive FetchOutcome where
  | reject
  | httpError
  | parseError
  | success (docs : List RawDoc)

/-- The target row loaded from the `books` table. -/
structure TargetBook where
  title : Option String
  assignee : Option String
  notes : Option String
deriving DecidableEq

/-- The seed field of the request body: absent, present but not a finite number
(`Number(seed)` is `NaN`/infinite), or a finite number — modelled after
`Math.floor` as the integer `k`. -/
inductive SeedInput where
  | absent
  | invalid
  | finite (k : Int)
deriving DecidableEq

/-- The request body after `request.json().catch(() => ({}))`. -/
structure WebBody where
  bookId : Option String
  topK : Option Int
  seed : SeedInput

/-- Everything the route reads from the outside world.  `target` is the
`maybeSingle()` row (`none` covers both a query error and a missing row, which
the route treats alike); `localsErr` is the error flag of the titles query;
`fetch n` is the outcome of the `n`-th Open Library fetch of this request;
`random` is the `Math.random()` stream. -/
structure WebEnv where
  target : Option TargetBook
  localRows : List (Option String)
  localsErr : Bool
  fetch : Nat → FetchOutcome
  random : Nat → ℚ

/-- `const { topK = 5 } = body` followed by
`Math.max(1, Math.min(Number(topK) || 5, 50))`.  A missing `topK` defaults to
5; `Number(0) || 5` is also 5 because `0` is falsy. -/
def clampTopK (topK : Option Int) : Int :=
  let v : Int := match topK with
    | none => 5
    | some t => if t = 0 then 5 else t
  max 1 (min v 50)

/-- `Math.min(Math.max(requestedTopK * 6, 20), 100)`. -/
def fetchLimitOf (rtk : Int) : Int := min (max (rtk * 6) 20) 100

/-- `[title, assignee, notes].filter(Boolean).join(" ").trim()`. -/
def buildQuery (tb : TargetBook) : String :=
  jsTrim (jsJoin " "
    (([tb.title, tb.assignee, tb.notes].filterMap id).filter (fun s => !(s = ""))))

/-- The exclusion set of local titles (lower-cased, trimmed); empty when the
titles query failed. -/
def localTitlesOf (env : WebEnv) : List String :=
  if env.localsErr then []
  else env.localRows.filterMap (fun r =>
    match r with
    | none => none
    | some t => if t = "" then none else some (normTitle t))

/-- The map step of `queryOpenLibrary` on one document. -/
def mapDoc (d : RawDoc) : Candidate :=
  { title := d.title.getD ""
    author := match d.author_name with
      | some names => jsJoin ", " names
      | none => "Unknown"
    key := d.key
    source := "openlibrary" }

/-- The map-and-filter of a successful response: empty titles are dropped
(`d.title` is falsy) and titles already in the local exclusion set are removed. -/
def olResults (localTitles : List String) (docs : List RawDoc) : List Candidate :=
  (docs.map mapDoc).filter
    (fun c => !(c.title = "") && !(localTitles.contains (normTitle c.title)))

/-- `queryOpenLibrary` (web route lines 74-95): an HTTP error (`!resp.ok`) or a
parse failure yields `[]`; a rejected fetch promise is an exception that the
function does not catch, so it propagates (`Except.error`). -/
def queryOpenLibrary (localTitles : List String) : FetchOutcome → Except Unit (List Candidate)
  | .reject => .error ()
  | .httpError => .ok []
  | .parseError => .ok []
  | .success docs => .ok (olResults localTitles docs)

/-- The widening merge (web route lines 117-124): keep all primary candidates,
then append widened candidates whose normalized title has not been seen. -/
def mergeWidenGo (seen : List String) : List Candidate → List Candidate
  | [] => []
  | d :: rest =>
    let t := normTitle d.title
    if seen.contains t then mergeWidenGo seen rest
    else d :: mergeWidenGo (t :: seen) rest

/-- `recommendations` after the widening pass: primary-then-widened order,
first-seen normalized title kept. -/
def mergeWiden (p w : List Candidate) : List Candidate :=
  p ++ mergeWidenGo (p.map (fun c => normTitle c.title)) w

/-- The dedup loop (web route lines 127-138): drop candidates whose normalized
title is empty, keep the first occurrence of every normalized title. -/
def dedupGo (seen : List String) : List Candidate → List Candidate
  | [] => []
  | d :: rest =>
    let t := normTitle d.title
    if t = "" then dedupGo seen rest
    else if seen.contains t then dedupGo seen rest
    else d :: dedupGo (t :: seen) rest

/-- Step 5 of the web route: deduplicate by normalized title preserving order. -/
def dedupByTitle (l : List Candidate) : List Candidate := dedupGo [] l

/-- The random stream used by the shuffle: the mulberry32 closure when the seed
is finite, the `Math.random` oracle otherwise. -/
def randStream (env : WebEnv) : SeedInput → (Nat → ℚ)
  | .finite k => mulberry32Stream k
  | _ => env.random

/-- The response of the web route, by status. -/
inductive WebResult where
  | ok (recs : List Candidate)
  | badRequest
  | notFound
  | internalError
deriving DecidableEq

def WebResult.isOk : WebResult → Bool
  | .ok _ => true
  | _ => false

/-- Steps 3-4 of the web route: the primary fetch, and the widening fetch when
the primary yields fewer than `min 2 requestedTopK` candidates and the target
has a (truthy) bare title.  Returns the candidate list (or the uncaught fetch
exception) together with the log of issued fetches as (query, limit) pairs. -/
def fetchStage (lt : List String) (queryText : String) (titleOpt : Option String)
    (rtk : Int) (fetch : Nat → FetchOutcome) :
    Except Unit (List Candidate) × List (String × Int) :=
  let fl := fetchLimitOf rtk
  match queryOpenLibrary lt (fetch 0) with
  | .error e => (.error e, [(queryText, fl)])
  | .ok p =>
    if ((p.length : Int) < min 2 rtk) ∧ strTruthy titleOpt then
      let lim2 := min (fl * 2) 200
      match queryOpenLibrary lt (fetch 1) with
      | .error e => (.error e, [(queryText, fl), (titleOpt.getD "", lim2)])
      | .ok w => (.ok (mergeWiden p w), [(queryText, fl), (titleOpt.getD "", lim2)])
    else (.ok p, [(queryText, fl)])

/-- The whole web route `POST` handler as a function of its environment and
body, returning the response and the log of Open Library fetches. -/
def webPipeline (env : WebEnv) (body : WebBody) : WebResult × List (String × Int) :=
  let rtk := clampTopK body.topK
  if !strTruthy body.bookId then (.badRequest, [])
  else
    match env.target with
    | none => (.notFound, [])
    | some tb =>
      let q := buildQuery tb
      if q = "" then (.ok [], [])
      else
        let lt := localTitlesOf env
        match fetchStage lt q tb.title rtk env.fetch with
        | (.error _, log) => (.internalError, log)
        | (.ok recsList, log) =>
          let deduped := dedupByTitle recsList
          let shuffled := shuffleArray (randStream env body.seed) deduped
          (.ok (jsSliceTo shuffled rtk), log)

/-! ### Local rank path (`POST /api/ai/recommend`, second document of route.ts) -/

/-- `Number.EPSILON` = 2^-52, exactly representable in `ℚ`. -/
def epsilonQ : ℚ := 1 / 4503599627370496

/-- `cosineSimilarity` (rank route lines 187-201): dot product and norms over
the overlapping index range, denominator `sqrt(na) * sqrt(nb) + EPSILON`.
`sq` is the square-root interpretation (see the header note on floats). -/
def cosineSimilarity (sq : ℚ → ℚ) (a b : List ℚ) : ℚ :=
  let n := min a.length b.length
  let dot := (List.zipWith (fun x y => x * y) a b).sum
  let na := ((a.take n).map (fun x => x * x)).sum
  let nb := ((b.take n).map (fun x => x * x)).sum
  dot / (sq na * sq nb + epsilonQ)

/-- One row of the `book_ai` table as fetched for ranking. -/
structure AiRow where
  book_id : String
  embedding : Option (List ℚ)
  tags : Option (List String)
  summary : Option String
deriving DecidableEq

/-- One scored entry (`{ book_id, score, tags, summary }`). -/
structure Scored where
  book_id : String
  score : ℚ
  tags : List String
  summary : String
deriving DecidableEq

/-- `rows.filter((r) => Array.isArray(r.embedding) && r.embedding.length > 0)`. -/
def validRows (rows : List AiRow) : List AiRow :=
  rows.filter fun r =>
    match r.embedding with
    | some e => decide (0 < e.length)
    | none => false

/-- The map step producing scored entries. -/
def scoreRows (sq : ℚ → ℚ) (target : List ℚ) (rows : List AiRow) : List Scored :=
  (validRows rows).map fun r =>
    { book_id := r.book_id
      score := cosineSimilarity sq target (r.embedding.getD [])
      tags := r.tags.getD []
      summary := r.summary.getD "" }

/-- The JS comparator `(a, b) => b.score - a.score` as a `Bool` order: `a` may
come before `b` exactly when `b.score ≤ a.score`.  `Array.prototype.sort` is
required to be stable, so the sort itself is modelled by the stable
`List.mergeSort`. -/
def scoredLE (a b : Scored) : Bool := decide (b.score ≤ a.score)

/-- `scored` of the rank route (lines 260-272): score the valid rows, sort by
descending score, then `slice(0, topK)` with the raw, unclamped `topK`. -/
def rankScored (sq : ℚ → ℚ) (target : List ℚ) (rows : List AiRow) (topK : Int) : List Scored :=
  jsSliceTo ((scoreRows sq target rows).mergeSort scoredLE) topK

/-! ### Client component (part_003): strict / relaxed / rotate-fallback -/

/-- A client-side recommendation entry; only the title takes part in the
selection passes. -/
structure Rec where
  title : Option String
  author : Option String
  source : Option String
deriving DecidableEq

/-- `MAX_WEB_RECS` of the client component. -/
def MAX_WEB_RECS : Nat := 3

/-- The selection key of a client entry (`!candidate?.title` and an empty
trimmed lower-cased title both lead to a skip, so both collapse to `""`). -/
def recNorm (r : Rec) : String := normTitle (r.title.getD "")

/-- One selection pass over the shuffled pool.  `ignoreCurrent = false` is the
strict pass (skip titles in `currentTitles`); `ignoreCurrent = true` is the
relaxed pass.  `chosen`/`seen` are the accumulators shared by the two passes;
the loop stops as soon as `MAX_WEB_RECS` entries are chosen. -/
def passGo (ignoreCurrent : Bool) (current : List String) :
    List Rec → List Rec → List String → List Rec × List String
  | [], chosen, seen => (chosen, seen)
  | c :: rest, chosen, seen =>
    if MAX_WEB_RECS ≤ chosen.length then (chosen, seen)
    else
      let t := recNorm c
      if t = "" then passGo ignoreCurrent current rest chosen seen
      else if seen.contains t then passGo ignoreCurrent current rest chosen seen
      else if !ignoreCurrent && current.contains t then
        passGo ignoreCurrent current rest chosen seen
      else passGo ignoreCurrent current rest (chosen ++ [c]) (seen ++ [t])

/-- The strict pass alone, started on empty accumulators. -/
def strictPass (pool : List Rec) (current : List String) : List Rec :=
  (passGo false current pool [] []).1

/-- `chosen` after the strict pass and, if it under-fills, the relaxed pass. -/
def afterRelaxed (pool : List Rec) (current : List String) : List Rec :=
  let p1 := passGo false current pool [] []
  if p1.1.length < MAX_WEB_RECS then (passGo true current pool p1.1 p1.2).1 else p1.1

/-- Rotate-fallback: move the first element of the previous result set to the
end (`shift` then `push`; the shifted element is a record, hence truthy). -/
def rotate1 (l : List Rec) : List Rec :=
  match l with
  | [] => []
  | x :: xs => xs ++ [x]

/-- The final selection of `fetchWebRecommendations` (part_003 lines 221-260):
strict pass, relaxed pass if under-filled, rotate-fallback if still empty and
previous results exist, then `slice(0, MAX_WEB_RECS)`. -/
def chooseRecs (pool : List Rec) (current : List String) (prev : List Rec) : List Rec :=
  let chosen := afterRelaxed pool current
  let chosen2 :=
    if chosen = [] ∧ prev ≠ [] then (rotate1 prev).take MAX_WEB_RECS else chosen
  chosen2.take MAX_WEB_RECS

/-! ### Concrete fixtures used by witnesses and counterexamples -/

/-- A concrete square-root interpretation (any function works; the claims hold
for all of them). -/
def sq0 : ℚ → ℚ := fun _ => 0

/-- An `book_ai` row with a one-dimensional embedding. -/
def mkRow (s : String) : AiRow := ⟨s, some [1], none, none⟩

def rows1 : List AiRow := [mkRow "b1"]

def rows51 : List AiRow := (List.range 51).map (fun i => mkRow (toString i))

/-- The single scored entry produced from `rows1` with target `[1]` under
`sq0`: the score is `1 / (0 * 0 + 2 ^ (-52)) = 2 ^ 52`. -/
def recC : Scored := ⟨"b1", 4503599627370496, [], ""⟩

def targetW : List ℚ := [1, 0]

def rowsW : List AiRow := [⟨"b1", some [0, 1], none, none⟩, ⟨"b2", some [0, 2], none, none⟩]

def recA : Scored := ⟨"b1", 0, [], ""⟩

def recB : Scored := ⟨"b2", 0, [], ""⟩

def tb1 : TargetBook := ⟨some "Dune", none, none⟩

def body1 : WebBody := ⟨some "b", some 5, .absent⟩

/-- Environment whose every fetch promise rejects (network failure). -/
def envReject : WebEnv := ⟨some tb1, [], false, fun _ => .reject, fun _ => 0⟩

/-- Environment whose fetches succeed with empty document lists. -/
def env0 : WebEnv := ⟨some tb1, [], false, fun _ => .success [], fun _ => 0⟩

def doc0 : RawDoc := ⟨some "Alpha", none, none⟩

def docA : RawDoc := ⟨some "Beta", none, none⟩

def docB : RawDoc := ⟨some "Gamma", none, none⟩

def docC : RawDoc := ⟨some "Delta", none, none⟩

/-- Environment for the widening scenario: the primary fetch returns one
document, the widening fetch three documents with fresh titles. -/
def env1 : WebEnv :=
  ⟨some tb1, [], false,
   fun n => match n with
     | 0 => .success [doc0]
     | _ => .success [docA, docB, docC],
   fun _ => 0⟩

def candList : List Candidate :=
  [⟨"Alpha", "X", none, "openlibrary"⟩, ⟨"alpha ", "Y", none, "openlibrary"⟩,
   ⟨"", "Z", none, "openlibrary"⟩, ⟨"Beta", "W", none, "openlibrary"⟩]

def pool2 : List Rec := [⟨some "A", none, none⟩, ⟨some "B", none, none⟩]

def current2 : List String := ["a", "b"]

def recX : Rec := ⟨some "Z", none, none⟩

def heap0 : JsHeap Nat := ⟨fun r => if r = 0 then [1, 2, 3] else [], 1⟩

def rand0 : Nat → ℚ := fun _ => 0

/-! ## Theorems -/

/-! ### Shuffle: permutation, determinism, no mutation -/

theorem listSwap_length {α : Type} (a : List α) (i j : Nat) :
    (listSwap a i j).length = a.length := by
  unfold listSwap
  split <;> simp

theorem cons_set_perm {α : Type} :
    ∀ (t : List α) (m : Nat) (hm : m < t.length) (a : α),
      List.Perm (t.get ⟨m, hm⟩ :: t.set m a) (a :: t) := by
  intro t
  induction t with
  | nil => intro m hm a; simp at hm
  | cons b u ih =>
    intro m hm a
    match m with
    | 0 => simpa using List.Perm.swap a b u
    | Nat.succ k =>
      have hk : k < u.length := by simpa using hm
      have h1 : List.Perm (u.get ⟨k, hk⟩ :: b :: u.set k a) (b :: u.get ⟨k, hk⟩ :: u.set k a) :=
        List.Perm.swap b (u.get ⟨k, hk⟩) _
      have h2 : List.Perm (b :: u.get ⟨k, hk⟩ :: u.set k a) (b :: a :: u) := (ih k hk a).cons b
      have h3 : List.Perm (b :: a :: u) (a :: b :: u) := List.Perm.swap a b u
      exact (h1.trans h2).trans h3

theorem listSwap_perm {α : Type} :
    ∀ (a : List α) (i j : Nat), i < a.length → j < a.length → List.Perm (listSwap a i j) a := by
  intro a
  induction a with
  | nil => intro i j hi _; simp at hi
  | cons b u ih =>
    intro i j hi hj
    have hlen : i < (b :: u).length ∧ j < (b :: u).length := ⟨hi, hj⟩
    rw [listSwap, dif_pos hlen]
    match i, j with
    | 0, 0 => simp
    | 0, Nat.succ k =>
      have hk : k < u.length := by simpa using hj
      simpa using cons_set_perm u k hk b
    | Nat.succ m, 0 =>
      have hm : m < u.length := by simpa using hi
      simpa using cons_set_perm u m hm b
    | Nat.succ m, Nat.succ k =>
      have hm : m < u.length := by simpa using hi
      have hk : k < u.length := by simpa using hj
      have h' := ih m k hm hk
      rw [listSwap, dif_pos ⟨hm, hk⟩] at h'
      simpa using h'.cons b

theorem fyGo_perm {α : Type} (rand : Nat → ℚ) (hr : ∀ m, rand m < 1) :
    ∀ (v n : Nat) (a : List α), v < a.length → List.Perm (fyGo rand n v a) a := by
  intro v
  induction v with
  | zero => intro n a _; exact List.Perm.refl a
  | succ v ih =>
    intro n a hv
    have hq : rand n * ((v + 2 : Nat) : ℚ) < ((v + 2 : Nat) : ℚ) := by
      have hpos : (0 : ℚ) < ((v + 2 : Nat) : ℚ) := by positivity
      exact mul_lt_of_lt_one_left hpos (hr n)
    have hfl : ⌊rand n * ((v + 2 : Nat) : ℚ)⌋ < ((v + 2 : Nat) : Int) := by
      rw [Int.floor_lt]
      exact_mod_cast hq
    have hj : (⌊rand n * ((v + 2 : Nat) : ℚ)⌋).toNat < v + 2 := by omega
    show List.Perm (fyGo rand (n + 1) v (listSwap a (v + 1) (⌊rand n * ((v + 2 : Nat) : ℚ)⌋).toNat)) a
    have hswap : List.Perm (listSwap a (v + 1) (⌊rand n * ((v + 2 : Nat) : ℚ)⌋).toNat) a :=
      listSwap_perm a _ _ hv (by omega)
    have hv' : v < (listSwap a (v + 1) (⌊rand n * ((v + 2 : Nat) : ℚ)⌋).toNat).length := by
      rw [listSwap_length]; omega
    exact (ih (n + 1) _ hv').trans hswap

theorem shuffleArray_perm {α : Type} (rand : Nat → ℚ) (hr : ∀ m, rand m < 1)
    (l : List α) : List.Perm (shuffleArray rand l) l := by
  cases l with
  | nil => exact List.Perm.refl _
  | cons x xs =>
    have : xs.length < (x :: xs).length := by simp
    simpa [shuffleArray] using fyGo_perm rand hr xs.length 0 (x :: xs) this

theorem mb32Output_lt (a : Int) : mb32Output a < 4294967296 := by
  unfold mb32Output
  exact Nat.mod_lt _ (by norm_num)

theorem mulberry32Stream_nonneg (k : Int) (n : Nat) : 0 ≤ mulberry32Stream k n := by
  unfold mulberry32Stream
  positivity

theorem mulberry32Stream_lt_one (k : Int) (n : Nat) : mulberry32Stream k n < 1 := by
  unfold mulberry32Stream
  rw [div_lt_one (by norm_num)]
  exact_mod_cast mb32Output_lt _

/-- Claim C6: for every input list, the shuffle output is a permutation of the
input — both for an arbitrary random source whose draws lie in `[0, 1)`
(`Math.random`, used when the seed is missing or invalid) and for the
mulberry32 stream of any finite seed. -/
theorem shuffle_is_permutation {α : Type} (l : List α) :
    (∀ rand : Nat → ℚ, (∀ m, 0 ≤ rand m ∧ rand m < 1) → List.Perm (shuffleArray rand l) l)
    ∧ (∀ k : Int, List.Perm (shuffleArray (mulberry32Stream k) l) l) := by
  constructor
  · intro rand hr
    exact shuffleArray_perm rand (fun m => (hr m).2) l
  · intro k
    exact shuffleArray_perm _ (fun m => mulberry32Stream_lt_one k m) l

/-- Witness for C6 at a concrete list and a concrete in-range random source. -/
theorem shuffle_is_permutation_witness :
    List.Perm (shuffleArray rand0 [1, 2, 3]) [1, 2, 3] :=
  (shuffle_is_permutation [1, 2, 3]).1 rand0 (fun _ => by norm_num [rand0])

/-- Claim C4: with the same finite seed and the same input list the shuffle
output is identical on every call (the generator has no hidden state besides
the seed), and the generator state advances by the fixed mixing constant
`0x6d2b79f5` on every draw, so every draw is a function of the seed alone. -/
theorem seeded_shuffle_deterministic {α : Type} (l : List α) (k : Int) :
    shuffleArray (mulberry32Stream k) l = shuffleArray (mulberry32Stream k) l
    ∧ (∀ n : Nat, mulberry32States k n = k + n * 0x6d2b79f5)
    ∧ (∀ n : Nat,
        mulberry32Stream k n
          = (mb32Output (k + ((n : Int) + 1) * 0x6d2b79f5) : ℚ) / 4294967296) := by
  refine ⟨rfl, ?_, ?_⟩
  · intro n
    induction n with
    | zero => simp [mulberry32States]
    | succ n ih =>
      rw [mulberry32States, ih]
      push_cast
      ring
  · intro n
    have h : mulberry32States k (n + 1) = k + ((n : Int) + 1) * 0x6d2b79f5 := by
      induction n with
      | zero => simp [mulberry32States]
      | succ n ih =>
        rw [mulberry32States, ih]
        push_cast
        ring
    rw [mulberry32Stream, h]

theorem fyLoopRef_other {α : Type} (rand : Nat → ℚ) (aRef r : Nat) (hne : r ≠ aRef) :
    ∀ (v n : Nat) (h : JsHeap α), (fyLoopRef rand aRef n v h).arrays r = h.arrays r := by
  intro v
  induction v with
  | zero => intro n h; rfl
  | succ v ih =>
    intro n h
    show (fyLoopRef rand aRef (n + 1) v _).arrays r = _
    rw [ih]
    simp [heapWrite, hne]

/-- Claim C10: neither the server-side `shuffleArray` nor the client-side
`shuffle` mutates its argument: both copy with `slice()` and swap only inside
the copy, so after the call the caller's array holds the same elements in the
same order. -/
theorem shuffle_no_mutation {α : Type} (rand : Nat → ℚ) (h : JsHeap α) (arr : Nat)
    (hlt : arr < h.next) :
    (shuffleArrayRef rand h arr).2.arrays arr = h.arrays arr
    ∧ (clientShuffleRef rand h arr).2.arrays arr = h.arrays arr := by
  have hne : arr ≠ h.next := by omega
  constructor
  · show (fyLoopRef rand h.next 0 _ _).arrays arr = _
    rw [fyLoopRef_other rand h.next arr hne]
    simp [heapAlloc, hne]
  · show (fyLoopRef rand h.next 0 _ _).arrays arr = _
    rw [fyLoopRef_other rand h.next arr hne]
    simp [heapAlloc, hne]

/-- Witness for C10 on a concrete three-element array stored at reference 0. -/
theorem shuffle_no_mutation_witness :
    (shuffleArrayRef rand0 heap0 0).2.arrays 0 = heap0.arrays 0
    ∧ (clientShuffleRef rand0 heap0 0).2.arrays 0 = heap0.arrays 0 :=
  shuffle_no_mutation rand0 heap0 0 (by norm_num [heap0])

/-! ### Dedup by normalized title (C7) and the widening merge (C8) -/

theorem dedupGo_mem {c : Candidate} :
    ∀ (l : List Candidate) (seen : List String), c ∈ dedupGo seen l →
      ¬ seen.contains (normTitle c.title) ∧ normTitle c.title ≠ "" := by
  intro l
  induction l with
  | nil => intro seen h; simp [dedupGo] at h
  | cons d rest ih =>
    intro seen h
    rw [dedupGo] at h
    by_cases h0 : normTitle d.title = ""
    · rw [if_pos h0] at h
      exact ih seen h
    · rw [if_neg h0] at h
      by_cases h1 : seen.contains (normTitle d.title)
      · rw [if_pos h1] at h
        exact ih seen h
      · rw [if_neg h1] at h
        rcases List.mem_cons.mp h with hc | hc
        · subst hc; exact ⟨h1, h0⟩
        · have := ih _ hc
          refine ⟨fun hcon => this.1 ?_, this.2⟩
          simp only [List.contains_cons, Bool.or_eq_true]
          right
          exact hcon

theorem dedupGo_pairwise :
    ∀ (l : List Candidate) (seen : List String),
      (dedupGo seen l).Pairwise (fun a b => normTitle a.title ≠ normTitle b.title) := by
  intro l
  induction l with
  | nil => intro seen; simp [dedupGo]
  | cons d rest ih =>
    intro seen
    rw [dedupGo]
    by_cases h0 : normTitle d.title = ""
    · rw [if_pos h0]; exact ih seen
    · rw [if_neg h0]
      by_cases h1 : seen.contains (normTitle d.title)
      · rw [if_pos h1]; exact ih seen
      · rw [if_neg h1]
        refine List.Pairwise.cons ?_ (ih _)
        intro b hb heq
        have := (dedupGo_mem rest _ hb).1
        apply this
        simp [← heq]

theorem dedupGo_sublist :
    ∀ (l : List Candidate) (seen : List String), (dedupGo seen l).Sublist l := by
  intro l
  induction l with
  | nil => intro seen; simp [dedupGo]
  | cons d rest ih =>
    intro seen
    rw [dedupGo]
    by_cases h0 : normTitle d.title = ""
    · rw [if_pos h0]; exact (ih seen).cons d
    · rw [if_neg h0]
      by_cases h1 : seen.contains (normTitle d.title)
      · rw [if_pos h1]; exact (ih seen).cons d
      · rw [if_neg h1]; exact (ih _).cons₂ d

theorem dedupGo_find? (t : String) (ht : t ≠ "") :
    ∀ (l : List Candidate) (seen : List String), ¬ seen.contains t →
      (dedupGo seen l).find? (fun c => normTitle c.title == t)
        = l.find? (fun c => normTitle c.title == t) := by
  intro l
  induction l with
  | nil => intro seen _; simp [dedupGo]
  | cons d rest ih =>
    intro seen hseen
    rw [dedupGo]
    by_cases h0 : normTitle d.title = ""
    · rw [if_pos h0]
      have hne : ¬ (normTitle d.title == t) = true := by
        simp [h0]
        exact fun h => ht h.symm
      rw [List.find?_cons_of_neg (p := fun c => normTitle c.title == t) rest hne]
      exact ih seen hseen
    · rw [if_neg h0]
      by_cases h1 : seen.contains (normTitle d.title)
      · rw [if_pos h1]
        have hne : ¬ (normTitle d.title == t) = true := by
          simp only [beq_iff_eq]
          intro he
          exact hseen (he ▸ h1)
        rw [List.find?_cons_of_neg (p := fun c => normTitle c.title == t) rest hne]
        exact ih seen hseen
      · rw [if_neg h1]
        by_cases h2 : normTitle d.title = t
        · rw [List.find?_cons_of_pos _ (by simp [h2]), List.find?_cons_of_pos _ (by simp [h2])]
        · rw [List.find?_cons_of_neg _ (by simp [h2]), List.find?_cons_of_neg _ (by simp [h2])]
          apply ih
          simp only [List.contains_cons, Bool.or_eq_true, not_or]
          exact ⟨by simpa using fun he => h2 he.symm, hseen⟩

/-- Claim C7: after the dedup step, no two entries share a normalized title,
entries with an empty normalized title are dropped, the result is a sublist of
the input (order preserved), and for every nonempty normalized title the first
match of the output is the first match of the input (first-seen kept). -/
theorem dedup_by_title_spec (l : List Candidate) :
    (dedupByTitle l).Pairwise (fun a b => normTitle a.title ≠ normTitle b.title)
    ∧ (∀ c ∈ dedupByTitle l, normTitle c.title ≠ "")
    ∧ (dedupByTitle l).Sublist l
    ∧ (∀ t : String, t ≠ "" →
        (dedupByTitle l).find? (fun c => normTitle c.title == t)
          = l.find? (fun c => normTitle c.title == t)) := by
  refine ⟨dedupGo_pairwise l [], ?_, dedupGo_sublist l [], ?_⟩
  · intro c hc
    exact (dedupGo_mem l [] hc).2
  · intro t ht
    exact dedupGo_find? t ht l [] (by simp)

/-- Witness for C7 on a concrete candidate list with a duplicate normalized
title, an empty title, and a fresh title. -/
theorem dedup_by_title_witness :
    (dedupByTitle candList).find? (fun c => normTitle c.title == "alpha")
      = candList.find? (fun c => normTitle c.title == "alpha") :=
  (dedup_by_title_spec candList).2.2.2 "alpha" (by decide)

theorem mergeWidenGo_find? (t : String) :
    ∀ (w : List Candidate) (seen : List String), ¬ seen.contains t →
      (mergeWidenGo seen w).find? (fun c => normTitle c.title == t)
        = w.find? (fun c => normTitle c.title == t) := by
  intro w
  induction w with
  | nil => intro seen _; simp [mergeWidenGo]
  | cons d rest ih =>
    intro seen hseen
    rw [mergeWidenGo]
    by_cases h1 : seen.contains (normTitle d.title)
    · rw [if_pos h1]
      have hne : ¬ (normTitle d.title == t) = true := by
        simp only [beq_iff_eq]
        intro he
        exact hseen (he ▸ h1)
      rw [List.find?_cons_of_neg (p := fun c => normTitle c.title == t) rest hne]
      exact ih seen hseen
    · rw [if_neg h1]
      by_cases h2 : normTitle d.title = t
      · rw [List.find?_cons_of_pos _ (by simp [h2]), List.find?_cons_of_pos _ (by simp [h2])]
      · rw [List.find?_cons_of_neg _ (by simp [h2]), List.find?_cons_of_neg _ (by simp [h2])]
        apply ih
        simp only [List.contains_cons, Bool.or_eq_true, not_or]
        exact ⟨by simpa using fun he => h2 he.symm, hseen⟩

theorem mergeWiden_find? (p w : List Candidate) (t : String) :
    (mergeWiden p w).find? (fun c => normTitle c.title == t)
      = (p ++ w).find? (fun c => normTitle c.title == t) := by
  unfold mergeWiden
  rw [List.find?_append, List.find?_append]
  cases hp : p.find? (fun c => normTitle c.title == t) with
  | some c => rfl
  | none =>
    simp only [Option.none_or]
    apply mergeWidenGo_find?
    intro hcon
    rcases List.contains_iff_exists_mem_beq.mp hcon with ⟨s, hs, hbeq⟩
    rcases List.mem_map.mp hs with ⟨c, hcmem, hceq⟩
    have hst : s = t := (beq_iff_eq.mp hbeq).symm
    have hc : (fun c => normTitle c.title == t) c = true := by
      simp only [beq_iff_eq]
      rw [hceq, hst]
    exact (List.find?_eq_none.mp hp c hcmem) hc

/-! ### Rank path: descending stable sort (C5) -/

theorem scoredLE_trans (a b c : Scored) : scoredLE a b → scoredLE b c → scoredLE a c := by
  unfold scoredLE
  simp only [decide_eq_true_eq]
  intro h1 h2
  exact le_trans h2 h1

theorem scoredLE_total (a b : Scored) : scoredLE a b || scoredLE b a := by
  unfold scoredLE
  rcases le_total a.score b.score with h | h <;> simp [h]

theorem jsSliceTo_eq_take {α : Type} (l : List α) (e : Int) :
    ∃ n : Nat, jsSliceTo l e = l.take n := by
  unfold jsSliceTo
  split
  · exact ⟨_, rfl⟩
  · exact ⟨_, rfl⟩

/-- Claim C5: for every square-root interpretation, target embedding and row
list, the sorted scored list is ordered by descending score; any two entries
appearing in score order in the input remain in that relative order in the
output (stability — in particular equal-score entries keep their input order,
with no secondary tie-break); and every truncation of the output is still in
descending score order. -/
theorem rank_sorted_stable (sq : ℚ → ℚ) (target : List ℚ) (rows : List AiRow) :
    ((scoreRows sq target rows).mergeSort scoredLE).Pairwise (fun a b => b.score ≤ a.score)
    ∧ (∀ a b : Scored, (([a, b] : List Scored)).Sublist (scoreRows sq target rows) →
        b.score ≤ a.score →
        (([a, b] : List Scored)).Sublist ((scoreRows sq target rows).mergeSort scoredLE))
    ∧ (∀ topK : Int,
        (rankScored sq target rows topK).Pairwise (fun a b => b.score ≤ a.score)) := by
  have hsorted :
      ((scoreRows sq target rows).mergeSort scoredLE).Pairwise (fun a b => b.score ≤ a.score) := by
    have h := List.sorted_mergeSort scoredLE_trans scoredLE_total (scoreRows sq target rows)
    exact h.imp (fun hab => by simpa [scoredLE] using hab)
  refine ⟨hsorted, ?_, ?_⟩
  · intro a b hsub hle
    exact List.pair_sublist_mergeSort scoredLE_trans scoredLE_total
      (by simpa [scoredLE] using hle) hsub
  · intro topK
    obtain ⟨n, hn⟩ := jsSliceTo_eq_take ((scoreRows sq target rows).mergeSort scoredLE) topK
    rw [rankScored, hn]
    exact hsorted.sublist (List.take_sublist _ _)

/-- Witness for C5: two orthogonal candidate embeddings give two equal (zero)
scores; the stability part keeps the pair in input order. -/
theorem rank_sorted_stable_witness :
    (([recA, recB] : List Scored)).Sublist ((scoreRows sq0 targetW rowsW).mergeSort scoredLE) := by
  have e : scoreRows sq0 targetW rowsW = [recA, recB] := by
    simp [scoreRows, validRows, rowsW, targetW, recA, recB, cosineSimilarity, sq0, epsilonQ]
  exact (rank_sorted_stable sq0 targetW rowsW).2.1 recA recB
    (by rw [e]) (by norm_num [recA, recB])

/-! ### Client selection passes (C3) and rotate-fallback (C9) -/

theorem passGo_length (ig : Bool) (cur : List String) :
    ∀ (pool chosen : List Rec) (seen : List String),
      (passGo ig cur pool chosen seen).1.length ≤ max chosen.length MAX_WEB_RECS := by
  intro pool
  induction pool with
  | nil => intro chosen seen; simp [passGo]
  | cons c rest ih =>
    intro chosen seen
    rw [passGo]
    by_cases hfull : MAX_WEB_RECS ≤ chosen.length
    · rw [if_pos hfull]
      simp
    · rw [if_neg hfull]
      by_cases h0 : recNorm c = ""
      · rw [if_pos h0]; exact ih chosen seen
      · rw [if_neg h0]
        by_cases h1 : seen.contains (recNorm c)
        · rw [if_pos h1]; exact ih chosen seen
        · rw [if_neg h1]
          by_cases h2 : (!ig && cur.contains (recNorm c)) = true
          · rw [if_pos h2]; exact ih chosen seen
          · rw [if_neg h2]
            have := ih (chosen ++ [c]) (seen ++ [recNorm c])
            have hlen : (chosen ++ [c]).length = chosen.length + 1 := by simp
            rw [hlen] at this
            omega

theorem passGo_mem (ig : Bool) (cur : List String) :
    ∀ (pool chosen : List Rec) (seen : List String) (x : Rec),
      x ∈ (passGo ig cur pool chosen seen).1 → x ∈ chosen ∨ x ∈ pool := by
  intro pool
  induction pool with
  | nil => intro chosen seen x hx; simp [passGo] at hx; exact Or.inl hx
  | cons c rest ih =>
    intro chosen seen x hx
    rw [passGo] at hx
    by_cases hfull : MAX_WEB_RECS ≤ chosen.length
    · rw [if_pos hfull] at hx
      exact Or.inl hx
    · rw [if_neg hfull] at hx
      by_cases h0 : recNorm c = ""
      · rw [if_pos h0] at hx
        rcases ih chosen seen x hx with h | h
        · exact Or.inl h
        · exact Or.inr (List.mem_cons_of_mem c h)
      · rw [if_neg h0] at hx
        by_cases h1 : seen.contains (recNorm c)
        · rw [if_pos h1] at hx
          rcases ih chosen seen x hx with h | h
          · exact Or.inl h
          · exact Or.inr (List.mem_cons_of_mem c h)
        · rw [if_neg h1] at hx
          by_cases h2 : (!ig && cur.contains (recNorm c)) = true
          · rw [if_pos h2] at hx
            rcases ih chosen seen x hx with h | h
            · exact Or.inl h
            · exact Or.inr (List.mem_cons_of_mem c h)
          · rw [if_neg h2] at hx
            rcases ih (chosen ++ [c]) (seen ++ [recNorm c]) x hx with h | h
            · rcases List.mem_append.mp h with h' | h'
              · exact Or.inl h'
              · exact Or.inr (by simpa using Or.inl (List.mem_singleton.mp h'))
            · exact Or.inr (List.mem_cons_of_mem c h)

theorem passGo_strict_excluded (cur : List String) :
    ∀ pool : List Rec, (∀ c ∈ pool, cur.contains (recNorm c)) →
      passGo false cur pool [] [] = ([], []) := by
  intro pool
  induction pool with
  | nil => intro _; rfl
  | cons c rest ih =>
    intro hall
    rw [passGo]
    rw [if_neg (by simp [MAX_WEB_RECS])]
    by_cases h0 : recNorm c = ""
    · rw [if_pos h0]
      exact ih (fun d hd => hall d (List.mem_cons_of_mem c hd))
    · rw [if_neg h0]
      rw [if_neg (by simp)]
      rw [if_pos (by simpa using hall c (List.mem_cons_self c rest))]
      exact ih (fun d hd => hall d (List.mem_cons_of_mem c hd))

/-- C3 counterexample: a two-element pool whose two normalized titles are both
in the exclusion set.  The strict pass selects nothing, yet the relaxed pass
returns 2 items — more than a requested `topK` of 1, so the relaxed pass is
not bounded by `topK` (its bound is the constant `MAX_WEB_RECS = 3`). -/
theorem relaxed_pass_counterexample :
    pool2.all (fun c => current2.contains (recNorm c)) = true
    ∧ strictPass pool2 current2 = []
    ∧ (afterRelaxed pool2 current2).length = 2 := by
  refine ⟨by decide, by decide, by decide⟩

/-- Claim C3 (amended): when every normalized title of the pool is in the
exclusion set, the strict pass selects 0 items and the relaxed pass then
returns up to `MAX_WEB_RECS` (= 3) items — not up to `topK` — drawn from that
same pool. -/
theorem relaxed_pass_amended (pool : List Rec) (current : List String)
    (hall : ∀ c ∈ pool, current.contains (recNorm c)) :
    strictPass pool current = []
    ∧ (afterRelaxed pool current).length ≤ MAX_WEB_RECS
    ∧ (∀ x ∈ afterRelaxed pool current, x ∈ pool) := by
  have hstrict := passGo_strict_excluded current pool hall
  refine ⟨?_, ?_, ?_⟩
  · rw [strictPass, hstrict]
  · rw [afterRelaxed, hstrict]
    simp only [List.length_nil]
    rw [if_pos (by norm_num [MAX_WEB_RECS])]
    have := passGo_length true current pool [] []
    simpa using this
  · intro x hx
    rw [afterRelaxed, hstrict] at hx
    simp only [List.length_nil] at hx
    rw [if_pos (by norm_num [MAX_WEB_RECS])] at hx
    rcases passGo_mem true current pool [] [] x hx with h | h
    · simp at h
    · exact h

/-- Witness for C3 (amended) on the concrete excluded pool. -/
theorem relaxed_pass_amended_witness :
    strictPass pool2 current2 = []
    ∧ (afterRelaxed pool2 current2).length ≤ MAX_WEB_RECS
    ∧ (∀ x ∈ afterRelaxed pool2 current2, x ∈ pool2) :=
  relaxed_pass_amended pool2 current2 (by decide)

/-- Claim C9: whenever the strict and relaxed passes both select zero items
and a previous result set exists, the final selection is the rotated previous
list truncated to `MAX_WEB_RECS`, and in particular it is nonempty. -/
theorem rotate_fallback (pool : List Rec) (current : List String) (prev : List Rec)
    (hempty : afterRelaxed pool current = []) (hprev : prev ≠ []) :
    chooseRecs pool current prev = (rotate1 prev).take MAX_WEB_RECS
    ∧ chooseRecs pool current prev ≠ [] := by
  have hrot : rotate1 prev ≠ [] := by
    match prev, hprev with
    | x :: xs, _ => simp [rotate1]
  have hchoose : chooseRecs pool current prev = (rotate1 prev).take MAX_WEB_RECS := by
    rw [chooseRecs, hempty, if_pos ⟨rfl, hprev⟩, List.take_take]
    norm_num
  refine ⟨hchoose, ?_⟩
  rw [hchoose]
  match h : rotate1 prev, hrot with
  | y :: ys, _ => simp [MAX_WEB_RECS]

/-- Witness for C9: empty pool, one previous recommendation. -/
theorem rotate_fallback_witness :
    chooseRecs [] [] [recX] = (rotate1 [recX]).take MAX_WEB_RECS
    ∧ chooseRecs [] [] [recX] ≠ [] :=
  rotate_fallback [] [] [recX] (by decide) (by decide)

/-! ### topK clamping (C1), fetch degradation (C2), widening pass (C8) -/

theorem clampTopK_bounds (o : Option Int) : 1 ≤ clampTopK o ∧ clampTopK o ≤ 50 := by
  simp only [clampTopK]
  exact ⟨le_max_left _ _, max_le (by norm_num) (min_le_right _ _)⟩

theorem jsSliceTo_length_le {α : Type} (l : List α) (e : Int) (he : 0 ≤ e) :
    (jsSliceTo l e).length ≤ e.toNat := by
  rw [jsSliceTo, if_neg (by omega)]
  simp

theorem queryOpenLibrary_ok (lt : List String) (o : FetchOutcome)
    (ho : o ≠ FetchOutcome.reject) :
    ∃ cs, queryOpenLibrary lt o = .ok cs := by
  cases o with
  | reject => exact absurd rfl ho
  | httpError => exact ⟨[], rfl⟩
  | parseError => exact ⟨[], rfl⟩
  | success docs => exact ⟨_, rfl⟩

theorem fetchStage_ok (lt : List String) (q : String) (titleOpt : Option String)
    (rtk : Int) (fetch : Nat → FetchOutcome) (hf : ∀ n, fetch n ≠ FetchOutcome.reject) :
    ∃ cs log, fetchStage lt q titleOpt rtk fetch = (.ok cs, log) := by
  obtain ⟨p, hp⟩ := queryOpenLibrary_ok lt (fetch 0) (hf 0)
  obtain ⟨w, hw⟩ := queryOpenLibrary_ok lt (fetch 1) (hf 1)
  simp only [fetchStage, hp]
  split
  · rw [hw]
    exact ⟨_, _, rfl⟩
  · exact ⟨_, _, rfl⟩

theorem webPipeline_ok_length (env : WebEnv) (body : WebBody) (recs : List Candidate)
    (log : List (String × Int)) (h : webPipeline env body = (WebResult.ok recs, log)) :
    recs.length ≤ 50 := by
  obtain ⟨hrtk1, hrtk50⟩ := clampTopK_bounds body.topK
  simp only [webPipeline] at h
  split at h
  · exact absurd h (by simp)
  · split at h
    · exact absurd h (by simp)
    · rename_i tb
      split at h
      · simp only [Prod.mk.injEq, WebResult.ok.injEq] at h
        rw [← h.1]
        simp
      · split at h
        · exact absurd h (by simp)
        · rename_i recsList lg hfs
          simp only [Prod.mk.injEq, WebResult.ok.injEq] at h
          rw [← h.1]
          have := jsSliceTo_length_le
            (shuffleArray (randStream env body.seed) (dedupByTitle recsList))
            (clampTopK body.topK) (by omega)
          omega

/-- C1 counterexample: on the local rank path `topK` is used raw.  With one
valid row, `topK = 0` returns nothing, whereas the value clamped into `[1, 50]`
(which is 1) returns the single scored row — so the rank path does not clamp
`topK` before use. -/
theorem topK_clamp_counterexample :
    rankScored sq0 [1] rows1 0 = []
    ∧ rankScored sq0 [1] rows1 (max 1 (min 0 50)) = [recC] := by
  constructor
  · rw [rankScored, jsSliceTo]
    norm_num
  · have e : scoreRows sq0 [1] rows1 = [recC] := by
      simp [scoreRows, validRows, rows1, mkRow, recC, cosineSimilarity, sq0, epsilonQ]
    rw [rankScored, e, List.mergeSort_singleton, jsSliceTo]
    norm_num

/-- Claim C1 (amended): the web path clamps `topK` into `[1, 50]` before use
(missing or 0 defaults to 5, 1000 becomes 50, negatives become 1) and its
response never exceeds 50 items; the local rank path applies no clamp — it
slices with the raw `topK`, so `topK = 1000` over 51 valid rows returns 51
items (> 50) and `topK = 0` returns 0 items. -/
theorem topK_clamp_amended :
    (∀ o : Option Int, 1 ≤ clampTopK o ∧ clampTopK o ≤ 50)
    ∧ clampTopK none = 5
    ∧ clampTopK (some 0) = 5
    ∧ clampTopK (some 1000) = 50
    ∧ (∀ t : Int, t < 0 → clampTopK (some t) = 1)
    ∧ (∀ (env : WebEnv) (body : WebBody) (recs : List Candidate) (log : List (String × Int)),
        webPipeline env body = (WebResult.ok recs, log) → recs.length ≤ 50)
    ∧ (rankScored sq0 [1] rows51 1000).length = 51
    ∧ rankScored sq0 [1] rows51 0 = [] := by
  refine ⟨clampTopK_bounds, by decide, by decide, by decide, ?_, webPipeline_ok_length, ?_, ?_⟩
  · intro t ht
    simp only [clampTopK]
    rw [if_neg (by omega : ¬ t = 0)]
    rw [min_eq_left (by omega : t ≤ (50 : Int))]
    exact max_eq_left (by omega)
  · have hval : validRows rows51 = rows51 := by
      rw [validRows, List.filter_eq_self]
      intro a ha
      rcases List.mem_map.mp ha with ⟨i, _, hi⟩
      rw [← hi]
      simp [mkRow]
    have hsorted : ((scoreRows sq0 [1] rows51).mergeSort scoredLE) = scoreRows sq0 [1] rows51 := by
      apply List.mergeSort_of_sorted
      apply List.pairwise_of_forall_mem_list
      intro a ha b hb
      rcases List.mem_map.mp (by rw [scoreRows, hval] at ha; exact ha) with ⟨r, hr, hra⟩
      rcases List.mem_map.mp (by rw [scoreRows, hval] at hb; exact hb) with ⟨s, hs, hsb⟩
      rcases List.mem_map.mp hr with ⟨i, _, hir⟩
      rcases List.mem_map.mp hs with ⟨j, _, hjs⟩
      have hsc : a.score = b.score := by
        rw [← hra, ← hsb, ← hir, ← hjs]
        simp [mkRow]
      rw [scoredLE, hsc]
      simp
    rw [rankScored, hsorted, jsSliceTo, if_neg (by norm_num)]
    have hlen : (scoreRows sq0 [1] rows51).length = 51 := by
      rw [scoreRows, hval, List.length_map, rows51, List.length_map, List.length_range]
    rw [List.length_take, hlen]
    rfl
  · rw [rankScored, jsSliceTo]
    norm_num

/-- Witness for C1 (amended): the negative-topK clamp at `-3` and the web-path
length bound at a concrete request whose fetches return no documents. -/
theorem topK_clamp_witness :
    clampTopK (some (-3)) = 1 ∧ ([] : List Candidate).length ≤ 50 :=
  ⟨topK_clamp_amended.2.2.2.2.1 (-3) (by norm_num),
   topK_clamp_amended.2.2.2.2.2.1 env0 body1 [] [("Dune", 30), ("Dune", 60)] (by decide)⟩

/-- C2 counterexample: a valid request (present bookId, resolvable target,
nonempty query) whose primary fetch promise rejects produces an Internal-error
response: the network failure is raised to the caller, not degraded to `[]`. -/
theorem fetch_degradation_counterexample :
    strTruthy body1.bookId = true
    ∧ envReject.target = some tb1
    ∧ (buildQuery tb1 == "") = false
    ∧ envReject.fetch 0 = FetchOutcome.reject
    ∧ (webPipeline envReject body1).1 = WebResult.internalError := by
  refine ⟨by decide, rfl, by decide, rfl, by decide⟩

/-- Claim C2 (amended): an HTTP failure (`!resp.ok`) or a JSON-parse failure on
a fetch degrades to an empty list for that fetch, and when no fetch promise
rejects, a valid request always receives an ok response; a rejected fetch
promise, however, escapes to the route's catch-all (Internal error). -/
theorem fetch_degradation_amended :
    (∀ lt, queryOpenLibrary lt FetchOutcome.httpError = .ok []
      ∧ queryOpenLibrary lt FetchOutcome.parseError = .ok [])
    ∧ (∀ (env : WebEnv) (body : WebBody) (tb : TargetBook),
        strTruthy body.bookId = true → env.target = some tb → buildQuery tb ≠ "" →
        (∀ n, env.fetch n ≠ FetchOutcome.reject) →
        (webPipeline env body).1.isOk = true) := by
  refine ⟨fun lt => ⟨rfl, rfl⟩, ?_⟩
  intro env body tb hid htgt hq hf
  obtain ⟨cs, lg, hfs⟩ := fetchStage_ok (localTitlesOf env) (buildQuery tb) tb.title
    (clampTopK body.topK) env.fetch hf
  simp only [webPipeline, hid, htgt, Bool.not_true, Bool.false_eq_true, if_false]
  rw [if_neg hq, hfs]
  rfl

/-- Witness for C2 (amended) at a concrete valid request whose fetches all
succeed (with empty document lists). -/
theorem fetch_degradation_witness :
    (webPipeline env0 body1).1.isOk = true :=
  fetch_degradation_amended.2 env0 body1 tb1 (by decide) rfl (by decide)
    (fun n => by simp [env0])

theorem fetchLimitOf_bounds (rtk : Int) : 20 ≤ fetchLimitOf rtk ∧ fetchLimitOf rtk ≤ 100 :=
  ⟨le_min (le_max_right _ _) (by norm_num), min_le_right _ _⟩

/-- Claim C8: under the widening trigger (primary yields fewer than
`min 2 topK` candidates, target title truthy, both fetches resolving), exactly
one additional fetch is logged — the bare title with a limit strictly larger
than the primary's; the merge keeps the whole primary list as a prefix and the
first-seen occurrence of every normalized title in primary-then-widened order;
and in the concrete 1-primary / 3-new-titles scenario with `topK = 5` the
deduplicated pre-shuffle pool has exactly 4 candidates. -/
theorem widening_pass (env : WebEnv) (body : WebBody) (tb : TargetBook)
    (docs0 docs1 : List RawDoc)
    (hid : strTruthy body.bookId = true)
    (htgt : env.target = some tb)
    (hq : buildQuery tb ≠ "")
    (hf0 : env.fetch 0 = FetchOutcome.success docs0)
    (hf1 : env.fetch 1 = FetchOutcome.success docs1)
    (hfew : ((olResults (localTitlesOf env) docs0).length : Int) < min 2 (clampTopK body.topK))
    (htit : strTruthy tb.title = true) :
    (webPipeline env body).2
      = [(buildQuery tb, fetchLimitOf (clampTopK body.topK)),
         (tb.title.getD "", min (fetchLimitOf (clampTopK body.topK) * 2) 200)]
    ∧ fetchLimitOf (clampTopK body.topK) < min (fetchLimitOf (clampTopK body.topK) * 2) 200
    ∧ (mergeWiden (olResults (localTitlesOf env) docs0)
          (olResults (localTitlesOf env) docs1)).take
        (olResults (localTitlesOf env) docs0).length = olResults (localTitlesOf env) docs0
    ∧ (∀ t : String,
        (mergeWiden (olResults (localTitlesOf env) docs0)
            (olResults (localTitlesOf env) docs1)).find? (fun c => normTitle c.title == t)
          = ((olResults (localTitlesOf env) docs0)
              ++ (olResults (localTitlesOf env) docs1)).find? (fun c => normTitle c.title == t))
    ∧ (webPipeline env body).1
        = WebResult.ok (jsSliceTo (shuffleArray (randStream env body.seed)
            (dedupByTitle (mergeWiden (olResults (localTitlesOf env) docs0)
              (olResults (localTitlesOf env) docs1)))) (clampTopK body.topK))
    ∧ (dedupByTitle (mergeWiden (olResults [] [doc0])
        (olResults [] [docA, docB, docC]))).length = 4 := by
  have hfs : fetchStage (localTitlesOf env) (buildQuery tb) tb.title (clampTopK body.topK)
      env.fetch
      = (Except.ok (mergeWiden (olResults (localTitlesOf env) docs0)
          (olResults (localTitlesOf env) docs1)),
         [(buildQuery tb, fetchLimitOf (clampTopK body.topK)),
          (tb.title.getD "", min (fetchLimitOf (clampTopK body.topK) * 2) 200)]) := by
    simp only [fetchStage, hf0, queryOpenLibrary]
    rw [if_pos ⟨hfew, htit⟩]
    simp only [hf1, queryOpenLibrary]
  have hweb : webPipeline env body
      = (WebResult.ok (jsSliceTo (shuffleArray (randStream env body.seed)
          (dedupByTitle (mergeWiden (olResults (localTitlesOf env) docs0)
            (olResults (localTitlesOf env) docs1)))) (clampTopK body.topK)),
         [(buildQuery tb, fetchLimitOf (clampTopK body.topK)),
          (tb.title.getD "", min (fetchLimitOf (clampTopK body.topK) * 2) 200)]) := by
    simp only [webPipeline, hid, htgt, Bool.not_true, Bool.false_eq_true, if_false]
    rw [if_neg hq, hfs]
  obtain ⟨hfl20, hfl100⟩ := fetchLimitOf_bounds (clampTopK body.topK)
  refine ⟨by rw [hweb], lt_min (by omega) (by omega), ?_, mergeWiden_find? _ _, by rw [hweb], ?_⟩
  · rw [mergeWiden, List.take_left]
  · decide

/-- Witness for C8 at the concrete widening scenario environment. -/
theorem widening_pass_witness :
    (webPipeline env1 body1).2
      = [(buildQuery tb1, fetchLimitOf (clampTopK body1.topK)),
         (tb1.title.getD "", min (fetchLimitOf (clampTopK body1.topK) * 2) 200)] :=
  (widening_pass env1 body1 tb1 [doc0] [docA, docB, docC]
    (by decide) rfl (by decide) rfl rfl (by decide) (by decide)).1

end LibraryRec
